import Mathlib

/-!
Verification of the testinator repository's concurrent test-execution core:
the MCP session pool, the agent-loop verdict extraction, the parallel
scheduler's result ordering, the orchestrator's run summary, the Azure
schema normalization, the session-save merge, and HTML escaping.

Each definition is a shallow embedding of the corresponding TypeScript
source; theorems settle the frozen claims about them.
-/

/- ### Section 1: MCPPool (src/src/agent.ts, class MCPPool)

The pool keeps `available : PooledClient[]` (modelled by the list of
client ids, in array order) and `inUse : Set<number>` (modelled by a
duplicate-free list in insertion order, with JS `Set` semantics). -/

structure PoolState where
  available : List Nat
  inUse : List Nat
  deriving DecidableEq, Repr

/-- JS `Set.add`: inserts at the end iff not already present. -/
def jsSetAdd (s : List Nat) (x : Nat) : List Nat :=
  if x ∈ s then s else s ++ [x]

/-- Source `MCPPool.initialize(size)`: `available` holds the `size` clients created
with ids `0..size-1` (in order, `Promise.all` preserves order); `inUse` is
empty. -/
def MCPPool.initializePool (size : Nat) : PoolState :=
  { available := List.range size, inUse := [] }

/-- Source `MCPPool.acquire()`: if `available` is empty the call blocks (modelled as
no state change and no handle); otherwise `available.shift()` removes the
front client and its id is added to `inUse`. -/
def MCPPool.acquire (s : PoolState) : PoolState × Option Nat :=
  match s.available with
  | [] => (s, none)
  | p :: rest => ({ available := rest, inUse := jsSetAdd s.inUse p }, some p)

/-- Source `MCPPool.release(id, client)`: only if `inUse.has(id)`, delete `id` from
`inUse` and `push` the client back onto `available`; otherwise a no-op. -/
def MCPPool.release (i : Nat) (s : PoolState) : PoolState :=
  if i ∈ s.inUse then
    { available := s.available ++ [i], inUse := s.inUse.erase i }
  else s

/-- One pool operation of a client of the pool: an `acquire()` call or a
`release(id)` call. -/
inductive PoolOp where
  | acquireOp : PoolOp
  | releaseOp (i : Nat) : PoolOp
  deriving DecidableEq, Repr

def applyOp (s : PoolState) : PoolOp → PoolState
  | .acquireOp => (MCPPool.acquire s).1
  | .releaseOp i => MCPPool.release i s

/-- State of the pool after a sequence of acquire/release operations. -/
def applyOps (ops : List PoolOp) (s : PoolState) : PoolState :=
  ops.foldl applyOp s

/-- The pool invariant for a pool of total size `n`. -/
def PoolInv (n : Nat) (s : PoolState) : Prop :=
  s.available.Nodup ∧ s.inUse.Nodup ∧
  (∀ i ∈ s.available, i ∉ s.inUse) ∧
  s.available.length + s.inUse.length = n

theorem poolInv_initializePool (n : Nat) : PoolInv n (MCPPool.initializePool n) := by
  refine ⟨List.nodup_range _, List.nodup_nil, ?_, ?_⟩ <;>
    simp [MCPPool.initializePool]

theorem poolInv_acquire {n : Nat} {s : PoolState} (h : PoolInv n s) :
    PoolInv n (MCPPool.acquire s).1 := by
  obtain ⟨hav, hiu, hdisj, hlen⟩ := h
  cases hs : s.available with
  | nil =>
    have heq : (MCPPool.acquire s).1 = s := by
      simp [MCPPool.acquire, hs]
    rw [heq]
    exact ⟨hav, hiu, hdisj, hlen⟩
  | cons p rest =>
    have hpmem : p ∈ s.available := by rw [hs]; exact List.mem_cons_self ..
    have hpnotin : p ∉ s.inUse := hdisj p hpmem
    have hrest : rest.Nodup ∧ p ∉ rest := by
      have := hav; rw [hs, List.nodup_cons] at this; exact ⟨this.2, this.1⟩
    have heq : (MCPPool.acquire s).1 =
        { available := rest, inUse := s.inUse ++ [p] } := by
      simp [MCPPool.acquire, hs, jsSetAdd, hpnotin]
    rw [heq]
    refine ⟨hrest.1, ?_, ?_, ?_⟩
    · rw [List.nodup_append]
      exact ⟨hiu, List.nodup_singleton p, by
        intro a ha hb
        simp only [List.mem_singleton] at hb
        exact hpnotin (hb ▸ ha)⟩
    · intro i hi
      have hresti : i ∈ s.available := by rw [hs]; exact List.mem_cons_of_mem _ hi
      have h1 : i ∉ s.inUse := hdisj i hresti
      have h2 : i ≠ p := fun he => hrest.2 (he ▸ hi)
      simp [List.mem_append, h1, h2]
    · have : s.available.length = rest.length + 1 := by rw [hs]; simp
      rw [this] at hlen
      simp only [List.length_append, List.length_singleton]
      omega

theorem poolInv_release {n : Nat} {s : PoolState} (i : Nat) (h : PoolInv n s) :
    PoolInv n (MCPPool.release i s) := by
  obtain ⟨hav, hiu, hdisj, hlen⟩ := h
  by_cases hmem : i ∈ s.inUse
  · simp only [MCPPool.release, if_pos hmem]
    have hinotav : i ∉ s.available := fun hc => hdisj i hc hmem
    refine ⟨?_, hiu.erase i, ?_, ?_⟩
    · rw [List.nodup_append]
      exact ⟨hav, List.nodup_singleton i, by
        intro a ha hb
        simp only [List.mem_singleton] at hb
        exact hinotav (hb ▸ ha)⟩
    · intro x hx
      rcases List.mem_append.mp hx with hx1 | hx2
      · intro hc
        exact hdisj x hx1 (List.mem_of_mem_erase hc)
      · simp only [List.mem_singleton] at hx2
        subst hx2
        exact hiu.not_mem_erase
    · have h1 : (s.inUse.erase i).length = s.inUse.length - 1 :=
        List.length_erase_of_mem hmem
      have h2 : 1 ≤ s.inUse.length := List.length_pos.mpr
        (List.ne_nil_of_mem hmem)
      simp only [List.length_append, List.length_singleton, h1]
      omega
  · simp only [MCPPool.release, if_neg hmem]
    exact ⟨hav, hiu, hdisj, hlen⟩

theorem poolInv_applyOps {n : Nat} (ops : List PoolOp) {s : PoolState}
    (h : PoolInv n s) : PoolInv n (applyOps ops s) := by
  induction ops generalizing s with
  | nil => exact h
  | cons op rest ih =>
    have hstep : PoolInv n (applyOp s op) := by
      cases op with
      | acquireOp => exact poolInv_acquire h
      | releaseOp i => exact poolInv_release i h
    exact ih hstep

/-- C1: for every sequence of acquire/release operations on a pool
initialized with size `n`, the in-use set never holds more than `n`
handles, no handle id is simultaneously in the available list and the
in-use set, and the available count plus the in-use count equals `n`. -/
theorem pool_mutual_exclusion_and_conservation (n : Nat) (ops : List PoolOp) :
    (applyOps ops (MCPPool.initializePool n)).inUse.length ≤ n ∧
    (∀ i, ¬(i ∈ (applyOps ops (MCPPool.initializePool n)).available ∧
      i ∈ (applyOps ops (MCPPool.initializePool n)).inUse)) ∧
    (applyOps ops (MCPPool.initializePool n)).available.length +
      (applyOps ops (MCPPool.initializePool n)).inUse.length = n := by
  obtain ⟨_, _, hdisj, hlen⟩ := poolInv_applyOps ops (poolInv_initializePool n)
  exact ⟨by omega, fun i ⟨h1, h2⟩ => hdisj i h1 h2, hlen⟩

/-- C5: releasing an id that is not in the in-use set is a no-op, and a
second consecutive release of the same id never changes the state (so it
never inserts a duplicate client into the available list). The nodup
hypothesis on `inUse` holds in every reachable state (see `PoolInv`). -/
theorem pool_release_noop_and_idempotent (s : PoolState) (i : Nat)
    (h : s.inUse.Nodup) :
    (i ∉ s.inUse → MCPPool.release i s = s) ∧
    MCPPool.release i (MCPPool.release i s) = MCPPool.release i s := by
  constructor
  · intro hno
    simp [MCPPool.release, hno]
  · by_cases hmem : i ∈ s.inUse
    · have hne : i ∉ s.inUse.erase i := h.not_mem_erase
      simp [MCPPool.release, hmem, hne]
    · simp [MCPPool.release, hmem]

/-- Witness for C5 at a concrete pool state. -/
theorem pool_release_noop_and_idempotent_witness :
    MCPPool.release 1 ⟨[0], [2]⟩ = ⟨[0], [2]⟩ ∧
    MCPPool.release 2 (MCPPool.release 2 ⟨[0], [2]⟩) =
      MCPPool.release 2 ⟨[0], [2]⟩ :=
  ⟨(pool_release_noop_and_idempotent ⟨[0], [2]⟩ 1 (by decide)).1 (by decide),
   (pool_release_noop_and_idempotent ⟨[0], [2]⟩ 2 (by decide)).2⟩

/- ### Section 2: Agent-loop verdict (src/src/agent.ts, runSpecWithClient)

`runSpecWithClient` calls the external SDK's `generateText` (budget
`maxSteps: 50`), then scans the produced steps for the first
`report_result` tool call and otherwise falls back on classifying the
final text. -/

structure Criterion where
  criterion : String
  passed : Bool
  reason : String
  deriving DecidableEq, Repr

structure AgentResult where
  success : Bool
  isToolingError : Bool
  toolingErrorMessage : String
  criteria : List Criterion
  deriving DecidableEq, Repr

/-- One tool call of a step. The `args` field models the decoded
`toolCall.args as AgentResult` payload; the extraction only ever reads it
when `toolName` is `report_result`, so other tools' argument shapes are
irrelevant here. -/
structure ToolCall where
  toolName : String
  args : AgentResult
  deriving DecidableEq, Repr

structure StepRecord where
  toolCalls : List ToolCall
  deriving DecidableEq, Repr

def reportResultArgs (tc : ToolCall) : Option AgentResult :=
  if tc.toolName == "report_result" then some tc.args else none

/-- The scan `for (const step of result.steps) for (const toolCall of
step.toolCalls) if (toolCall.toolName === 'report_result') return
toolCall.args`. -/
def findReportResult (steps : List StepRecord) : Option AgentResult :=
  steps.findSome? fun step => step.toolCalls.findSome? reportResultArgs

/-- JS `hay.includes(needle)` on strings, at the character-list level. -/
def includesSub (needle hay : List Char) : Bool :=
  hay.tails.any fun t => needle.isPrefixOf t

/-- JS `text.toLowerCase().includes(kw)`. -/
def lowerIncludes (text kw : String) : Bool :=
  includesSub kw.data (text.data.map Char.toLower)

/-- The heuristic fallback built from `result.text` when no `report_result`
call was found. -/
def classifyFinalText (text : String) : AgentResult :=
  let success := lowerIncludes text "pass" && !(lowerIncludes text "fail")
  { success := success, isToolingError := false, toolingErrorMessage := "",
    criteria := [{ criterion := "Test execution", passed := success,
                   reason := if success then "Completed" else "See details" }] }

def noVerdictResult : AgentResult :=
  { success := false, isToolingError := true,
    toolingErrorMessage := "Agent did not produce a test result",
    criteria := [] }

/-- The verdict `runSpecWithClient` returns, as a function of the steps and
final text produced by the conversation. -/
def extractVerdict (steps : List StepRecord) (finalText : String) :
    AgentResult :=
  match findReportResult steps with
  | some r => r
  | none =>
    if finalText ≠ "" then classifyFinalText finalText else noVerdictResult

/-- The step budget passed to `generateText` for specs. -/
def maxSteps : Nat := 50

/-- Modelled from the spec: the step-bounded tool-calling conversation is run
by the external SDK capability (`generateText`), whose loop is not part of
this repository. Per the spec (section 4.2 and section 6) steps are produced
in call order and the conversation ends when the verdict tool
`report_result` is invoked, when the model emits a step without tool calls,
or when the step budget is exhausted. `modelFn i` is the step the model
produces at index `i`. -/
def loopSteps (modelFn : Nat → StepRecord) : Nat → Nat → List StepRecord
  | _, 0 => []
  | i, fuel + 1 =>
    let s := modelFn i
    if s.toolCalls.any (fun tc => tc.toolName == "report_result") then [s]
    else if s.toolCalls.isEmpty then [s]
    else s :: loopSteps modelFn (i + 1) fuel

/-- C2: when the conversation produced no `report_result` call, a non-empty
final text yields the keyword heuristic (success iff the lowercased text
contains "pass" and not "fail", one synthesized criterion, not a tooling
error), and an empty final text yields the no-result tooling error. -/
theorem budget_exhaustion_fallback (steps : List StepRecord) (text : String)
    (h : findReportResult steps = none) :
    (text ≠ "" →
      extractVerdict steps text =
        { success := lowerIncludes text "pass" && !(lowerIncludes text "fail"),
          isToolingError := false, toolingErrorMessage := "",
          criteria := [⟨"Test execution",
            lowerIncludes text "pass" && !(lowerIncludes text "fail"),
            if lowerIncludes text "pass" && !(lowerIncludes text "fail")
              then "Completed" else "See details"⟩] }) ∧
    (text = "" → extractVerdict steps text = noVerdictResult) := by
  constructor
  · intro ht
    simp [extractVerdict, h, ht, classifyFinalText]
  · intro ht
    simp [extractVerdict, h, ht]

/-- Witness for C2 on a concrete passing text and on the empty text. -/
theorem budget_exhaustion_fallback_witness :
    extractVerdict [] "All checks PASS" =
      { success := true, isToolingError := false, toolingErrorMessage := "",
        criteria := [⟨"Test execution", true, "Completed"⟩] } ∧
    extractVerdict [] "" = noVerdictResult :=
  ⟨((budget_exhaustion_fallback [] "All checks PASS" rfl).1
      (by decide)).trans (by decide),
   (budget_exhaustion_fallback [] "" rfl).2 rfl⟩

theorem findSome?_reportResultArgs_eq_none {tcs : List ToolCall}
    (h : ∀ tc ∈ tcs, tc.toolName ≠ "report_result") :
    tcs.findSome? reportResultArgs = none := by
  induction tcs with
  | nil => rfl
  | cons a l ih =>
    have ha : reportResultArgs a = none := by
      simp [reportResultArgs, h a (List.mem_cons_self ..)]
    simp only [List.findSome?_cons, ha]
    exact ih fun tc htc => h tc (List.mem_cons_of_mem _ htc)

theorem any_report_of_findSome? {tcs : List ToolCall} {r : AgentResult}
    (h : tcs.findSome? reportResultArgs = some r) :
    tcs.any (fun tc => tc.toolName == "report_result") = true := by
  induction tcs with
  | nil => simp [List.findSome?] at h
  | cons a l ih =>
    by_cases ha : a.toolName == "report_result"
    · simp [ha]
    · have hn : reportResultArgs a = none := by simp [reportResultArgs, ha]
      simp only [List.findSome?_cons, hn] at h
      simp [ih h]

theorem loopSteps_verdict_aux (modelFn : Nat → StepRecord) (r : AgentResult) :
    ∀ (k i fuel : Nat), k < fuel →
    (∀ j, j < k → (modelFn (i + j)).toolCalls ≠ [] ∧
        ∀ tc ∈ (modelFn (i + j)).toolCalls, tc.toolName ≠ "report_result") →
    (modelFn (i + k)).toolCalls.findSome? reportResultArgs = some r →
    (loopSteps modelFn i fuel).length = k + 1 ∧
    findReportResult (loopSteps modelFn i fuel) = some r := by
  intro k
  induction k with
  | zero =>
    intro i fuel hfuel hall hcall
    obtain ⟨f, rfl⟩ : ∃ f, fuel = f + 1 :=
      ⟨fuel - 1, by omega⟩
    rw [Nat.add_zero] at hcall
    have hany : (modelFn i).toolCalls.any
        (fun tc => tc.toolName == "report_result") = true :=
      any_report_of_findSome? hcall
    simp only [loopSteps, hany, if_true]
    refine ⟨rfl, ?_⟩
    simp [findReportResult, List.findSome?_cons, hcall]
  | succ k ih =>
    intro i fuel hfuel hall hcall
    obtain ⟨f, rfl⟩ : ∃ f, fuel = f + 1 :=
      ⟨fuel - 1, by omega⟩
    obtain ⟨hne, hnames⟩ := hall 0 (Nat.succ_pos k)
    rw [Nat.add_zero] at hne hnames
    have hany : (modelFn i).toolCalls.any
        (fun tc => tc.toolName == "report_result") = false := by
      rw [List.any_eq_false]
      intro tc htc
      simp [hnames tc htc]
    have hemp : (modelFn i).toolCalls.isEmpty = false := by
      simp [List.isEmpty_iff, hne]
    have hstep := ih (i + 1) f (by omega)
      (fun j hj => by
        have := hall (j + 1) (by omega)
        rwa [show i + (j + 1) = i + 1 + j by omega] at this)
      (by rwa [show i + 1 + k = i + (k + 1) by omega])
    simp only [loopSteps, hany, hemp, Bool.false_eq_true, if_false]
    have hnone : (modelFn i).toolCalls.findSome? reportResultArgs = none :=
      findSome?_reportResultArgs_eq_none hnames
    refine ⟨?_, ?_⟩
    · simp [hstep.1]
    · simp [findReportResult, List.findSome?_cons, hnone]
      exact hstep.2

/-- C3: if the model invokes the verdict tool `report_result` at step `M`
strictly below the 50-step budget (and earlier steps kept the conversation
alive without invoking it), the conversation stops at step `M` — exactly
`M + 1` steps are produced, so step `M + 1` never runs — and
`runSpecWithClient` returns exactly the arguments of that verdict call,
whatever the final text is. -/
theorem verdict_precedence (modelFn : Nat → StepRecord) (text : String)
    (M : Nat) (r : AgentResult) (hM : M < maxSteps)
    (hpre : ∀ j, j < M → (modelFn j).toolCalls ≠ [] ∧
        ∀ tc ∈ (modelFn j).toolCalls, tc.toolName ≠ "report_result")
    (hcall : (modelFn M).toolCalls.findSome? reportResultArgs = some r) :
    (loopSteps modelFn 0 maxSteps).length = M + 1 ∧
    extractVerdict (loopSteps modelFn 0 maxSteps) text = r := by
  have haux := loopSteps_verdict_aux modelFn r M 0 maxSteps hM
    (fun j hj => by simpa using hpre j hj) (by simpa using hcall)
  exact ⟨haux.1, by simp [extractVerdict, haux.2]⟩

/-- The verdict arguments used by the C3 witness. -/
def verdictArgsW : AgentResult :=
  { success := true, isToolingError := false, toolingErrorMessage := "",
    criteria := [⟨"Login works", true, "Completed"⟩] }

/-- A concrete model for the C3 witness: one browser action at step 0, the
verdict call at step 1. -/
def modelFnW : Nat → StepRecord := fun i =>
  if i = 0 then
    { toolCalls := [{ toolName := "browser_navigate", args := verdictArgsW }] }
  else
    { toolCalls := [{ toolName := "report_result", args := verdictArgsW }] }

/-- Witness for C3: with the verdict at step 1, the loop produces exactly 2
steps and returns the verdict arguments. -/
theorem verdict_precedence_witness :
    (loopSteps modelFnW 0 maxSteps).length = 1 + 1 ∧
    extractVerdict (loopSteps modelFnW 0 maxSteps) "" = verdictArgsW :=
  verdict_precedence modelFnW "" 1 verdictArgsW (by decide) (by decide)
    (by decide)

/- ### Section 3: parallel scheduler result ordering
(src/src/main.ts, Main.runSpecsInParallel)

Workers push each TestResult into `results` in completion order; afterwards
`results.sort((a, b) => (fileOrder.get(a.specPath) ?? 0) -
(fileOrder.get(b.specPath) ?? 0))` restores the discovery order. -/

structure TestResult where
  specName : String
  specPath : String
  success : Bool
  deriving DecidableEq, Repr

/-- JS `new Map(files.map((f, i) => [f, i])).get(p)`: since `Map.set`
overwrites, the lookup yields the LAST index at which `p` occurs. The
accumulator `s` is the index of the list's first element. -/
def lastIndexFrom (p : String) : List String → Nat → Option Nat
  | [], _ => none
  | f :: rest, i =>
    match lastIndexFrom p rest (i + 1) with
    | some j => some j
    | none => if f == p then some i else none

/-- Lookup `fileOrder.get(p) ?? 0`. -/
def fileOrder (files : List String) (p : String) : Nat :=
  (lastIndexFrom p files 0).getD 0

/-- JS `results.sort(comparator)` with the numeric comparator on file order.
JS `Array.sort` is comparator-consistent; with the distinct keys of the
theorem below every comparator-consistent sort produces the same list, so
insertion sort models it. -/
def sortResults (files : List String) (rs : List TestResult) :
    List TestResult :=
  List.insertionSort
    (fun a b => fileOrder files a.specPath ≤ fileOrder files b.specPath) rs

theorem lastIndexFrom_eq_none {p : String} {l : List String} (h : p ∉ l) :
    ∀ s, lastIndexFrom p l s = none := by
  induction l with
  | nil => intro s; rfl
  | cons f rest ih =>
    intro s
    have h1 : p ∉ rest := fun hc => h (List.mem_cons_of_mem _ hc)
    have h2 : f ≠ p := fun hc => h (hc ▸ List.mem_cons_self ..)
    simp [lastIndexFrom, ih h1, h2]

theorem lastIndexFrom_get {files : List String} (hnodup : files.Nodup) :
    ∀ (i : Nat) (h : i < files.length) (s : Nat),
      lastIndexFrom (files.get ⟨i, h⟩) files s = some (s + i) := by
  induction files with
  | nil => intro i h; simp at h
  | cons f rest ih =>
    intro i h s
    rw [List.nodup_cons] at hnodup
    match i with
    | 0 =>
      have hget : (f :: rest).get ⟨0, h⟩ = f := rfl
      rw [hget]
      simp [lastIndexFrom, lastIndexFrom_eq_none hnodup.1]
    | i + 1 =>
      have hget : (f :: rest).get ⟨i + 1, h⟩ =
          rest.get ⟨i, Nat.lt_of_succ_lt_succ h⟩ := rfl
      rw [hget]
      have hmem : rest.get ⟨i, Nat.lt_of_succ_lt_succ h⟩ ∈ rest :=
        List.get_mem ..
      have hrec := ih hnodup.2 i (Nat.lt_of_succ_lt_succ h) (s + 1)
      simp only [lastIndexFrom, hrec]
      congr 1
      omega

theorem fileOrder_get {files : List String} (hnodup : files.Nodup)
    (i : Nat) (h : i < files.length) :
    fileOrder files (files.get ⟨i, h⟩) = i := by
  unfold fileOrder
  rw [lastIndexFrom_get hnodup i h 0]
  simp

theorem eq_of_perm_of_sorted_distinct_keys (key : TestResult → Nat) :
    ∀ (l₁ l₂ : List TestResult), l₁.Perm l₂ →
    l₁.Pairwise (fun a b => key a ≤ key b) →
    l₂.Pairwise (fun a b => key a ≤ key b) →
    (l₁.map key).Nodup → l₁ = l₂ := by
  intro l₁
  induction l₁ with
  | nil =>
    intro l₂ hperm _ _ _
    exact (List.Perm.nil_eq hperm).symm.symm ▸ rfl
  | cons a t₁ ih =>
    intro l₂ hperm hs₁ hs₂ hnd
    match l₂ with
    | [] => exact absurd hperm.symm (by simp)
    | b :: t₂ =>
      rw [List.pairwise_cons] at hs₁ hs₂
      have hab : a = b := by
        by_contra hne
        have hbmem : b ∈ a :: t₁ := hperm.symm.subset (List.mem_cons_self ..)
        have hamem : a ∈ b :: t₂ := hperm.subset (List.mem_cons_self ..)
        have hb : b ∈ t₁ := by
          rcases List.mem_cons.mp hbmem with hc | hc
          · exact absurd hc.symm hne
          · exact hc
        have ha : a ∈ t₂ := by
          rcases List.mem_cons.mp hamem with hc | hc
          · exact absurd hc hne
          · exact hc
        have h1 : key a ≤ key b := hs₁.1 b hb
        have h2 : key b ≤ key a := hs₂.1 a ha
        have hkeq : key a = key b := Nat.le_antisymm h1 h2
        rw [List.map_cons, List.nodup_cons] at hnd
        exact hnd.1 (hkeq ▸ List.mem_map_of_mem key hb)
      subst hab
      have hteq : t₁ = t₂ := by
        refine ih t₂ (hperm.cons_inv) hs₁.2 hs₂.2 ?_
        rw [List.map_cons, List.nodup_cons] at hnd
        exact hnd.2
      rw [hteq]

/-- C4: for a discovered file list with no duplicate paths, if the scheduler
completed the per-file results in an arbitrary order (`completed` is any
permutation of one result per file, each carrying its file's path), the
sorted result list is exactly the per-file results in original discovery
order — one TestResult per file, ordered like `files`. -/
theorem parallel_results_in_discovery_order (files : List String)
    (res : String → TestResult) (completed : List TestResult)
    (hnodup : files.Nodup)
    (hpath : ∀ f, (res f).specPath = f)
    (hperm : completed.Perm (files.map res)) :
    sortResults files completed = files.map res ∧
    (sortResults files completed).map (fun r => r.specPath) = files := by
  set key : TestResult → Nat := fun r => fileOrder files r.specPath with hkeydef
  have hkeyres : ∀ f, key (res f) = fileOrder files f := by
    intro f; rw [hkeydef]; simp [hpath f]
  haveI htot : IsTotal TestResult (fun a b => key a ≤ key b) :=
    ⟨fun a b => Nat.le_total _ _⟩
  haveI htrans : IsTrans TestResult (fun a b => key a ≤ key b) :=
    ⟨fun a b c => Nat.le_trans⟩
  have hsorted1 : (sortResults files completed).Pairwise
      (fun a b => key a ≤ key b) :=
    List.sorted_insertionSort _ completed
  have hperm1 : (sortResults files completed).Perm (files.map res) :=
    (List.perm_insertionSort _ completed).trans hperm
  have hsorted2 : (files.map res).Pairwise (fun a b => key a ≤ key b) := by
    rw [List.pairwise_map]
    rw [List.pairwise_iff_get]
    intro i j hij
    rw [hkeyres, hkeyres, fileOrder_get hnodup i i.isLt,
      fileOrder_get hnodup j j.isLt]
    exact Nat.le_of_lt hij
  have hkeysnd : ((files.map res).map key).Nodup := by
    have hmm : (files.map res).map key = files.map fun f => fileOrder files f := by
      rw [List.map_map]
      exact List.map_congr_left fun f _ => hkeyres f
    have hrange : files.map (fun f => fileOrder files f) =
        List.range files.length := by
      refine List.ext_get (by simp) fun n h₁ h₂ => ?_
      rw [List.get_map, List.get_range, fileOrder_get hnodup]
    rw [hmm, hrange]
    exact List.nodup_range _
  have heq : files.map res = sortResults files completed :=
    eq_of_perm_of_sorted_distinct_keys key (files.map res)
      (sortResults files completed) hperm1.symm hsorted2 hsorted1 hkeysnd
  refine ⟨heq.symm, ?_⟩
  rw [heq.symm, List.map_map]
  exact List.map_congr_left (fun f _ => hpath f) |>.trans (List.map_id files)

/-- Witness for C4: two files completed in reversed order are re-sorted
into discovery order. -/
theorem parallel_results_in_discovery_order_witness :
    sortResults ["a.md", "b.md"]
      [⟨"b.md", "b.md", true⟩, ⟨"a.md", "a.md", true⟩] =
      ["a.md", "b.md"].map (fun f => (⟨f, f, true⟩ : TestResult)) :=
  (parallel_results_in_discovery_order ["a.md", "b.md"]
    (fun f => ⟨f, f, true⟩)
    [⟨"b.md", "b.md", true⟩, ⟨"a.md", "a.md", true⟩]
    (by decide) (fun f => rfl)
    (List.Perm.swap _ _ _)).1

/- ### Section 4: orchestrator run (src/src/main.ts, Main.run)

`Main.run` checks for `AUTH_LOGIN.md`; if it exists and `runAuthentication`
fails, it returns `{results: [], allPassed: false, ..., authResult}` after
generating the report, without executing any spec. Otherwise it runs the
discovered specs and aggregates `allPassed = results.every(r => r.success)`.
The auth outcome and the per-spec results stand in for the external
LLM/browser effects. -/

structure AuthOutcome where
  success : Bool
  deriving DecidableEq, Repr

structure RunSummary where
  results : List TestResult
  allPassed : Bool
  authResult : Option AuthOutcome
  reportGenerated : Bool
  deriving DecidableEq, Repr

/-- Outcome of `Main.run` together with the number of spec units actually
executed (the number of agent-loop invocations). -/
structure RunOutcome where
  summary : RunSummary
  specsExecuted : Nat
  deriving DecidableEq, Repr

/-- Source `Main.run` as a function of whether `AUTH_LOGIN.md` exists at the specs
root, the authentication outcome (consulted only when the file exists), and
the TestResults the discovered specs would produce if run. -/
def Main.run (authFileExists : Bool) (auth : AuthOutcome)
    (specResults : List TestResult) : RunOutcome :=
  if authFileExists && !auth.success then
    { summary := { results := [], allPassed := false,
                   authResult := some auth, reportGenerated := true },
      specsExecuted := 0 }
  else
    { summary := { results := specResults,
                   allPassed := specResults.all (fun r => r.success),
                   authResult := if authFileExists then some auth else none,
                   reportGenerated := true },
      specsExecuted := specResults.length }

/-- C6: if the auth script exists and the authentication bootstrap fails,
the run executes zero spec units, returns an empty results list with
`allPassed = false`, still generates a report carrying the auth failure,
and its outcome does not depend on the discovered specs at all. -/
theorem auth_gating (auth : AuthOutcome) (specResults : List TestResult)
    (hfail : auth.success = false) :
    (Main.run true auth specResults).specsExecuted = 0 ∧
    (Main.run true auth specResults).summary.results = [] ∧
    (Main.run true auth specResults).summary.allPassed = false ∧
    (Main.run true auth specResults).summary.reportGenerated = true ∧
    (Main.run true auth specResults).summary.authResult = some auth ∧
    (∀ other : List TestResult,
      Main.run true auth specResults = Main.run true auth other) := by
  simp [Main.run, hfail]

/-- Witness for C6 at a concrete failing auth run. -/
theorem auth_gating_witness :
    (Main.run true ⟨false⟩ [⟨"a", "a", true⟩]).specsExecuted = 0 ∧
    (Main.run true ⟨false⟩ [⟨"a", "a", true⟩]).summary.results = [] ∧
    (Main.run true ⟨false⟩ [⟨"a", "a", true⟩]).summary.allPassed = false ∧
    (Main.run true ⟨false⟩ [⟨"a", "a", true⟩]).summary.reportGenerated
      = true ∧
    (Main.run true ⟨false⟩ [⟨"a", "a", true⟩]).summary.authResult
      = some ⟨false⟩ ∧
    (∀ other : List TestResult,
      Main.run true ⟨false⟩ [⟨"a", "a", true⟩] = Main.run true ⟨false⟩ other) :=
  auth_gating ⟨false⟩ [⟨"a", "a", true⟩] rfl

/-- C9 counterexample: the auth-failure path produces a RunSummary whose
results list is empty but whose `allPassed` is `false`, not the vacuous
`true` that the AND over zero results would give. -/
theorem allPassed_not_conjunction_on_auth_failure :
    (Main.run true ⟨false⟩ []).summary.results = [] ∧
    (Main.run true ⟨false⟩ []).summary.allPassed = false ∧
    ¬((Main.run true ⟨false⟩ []).summary.allPassed =
      (Main.run true ⟨false⟩ []).summary.results.all (fun r => r.success)) := by
  decide

/-- C9 (amended): in every RunSummary produced by a run in which
authentication did not fail (no auth script, or a successful bootstrap),
`allPassed` equals the conjunction of `success` over `results`, and is
vacuously true for an empty results list; the auth-failure summary instead
has empty results and `allPassed = false`. -/
theorem allPassed_aggregation (authFileExists : Bool) (auth : AuthOutcome)
    (specResults : List TestResult)
    (hok : authFileExists = false ∨ auth.success = true) :
    (Main.run authFileExists auth specResults).summary.allPassed =
      (Main.run authFileExists auth specResults).summary.results.all
        (fun r => r.success) ∧
    ((Main.run authFileExists auth specResults).summary.results = [] →
      (Main.run authFileExists auth specResults).summary.allPassed = true) := by
  rcases hok with h | h <;> simp [Main.run, h] <;>
    intro hnil <;> simp [hnil]

/-- Witness for the amended C9 on a run with no auth script and zero specs:
`allPassed` is vacuously true. -/
theorem allPassed_aggregation_witness :
    (Main.run false ⟨true⟩ []).summary.allPassed =
      (Main.run false ⟨true⟩ []).summary.results.all (fun r => r.success) ∧
    ((Main.run false ⟨true⟩ []).summary.results = [] →
      (Main.run false ⟨true⟩ []).summary.allPassed = true) :=
  allPassed_aggregation false ⟨true⟩ [] (Or.inl rfl)

/- ### Section 5: Azure schema normalization (src/src/azure-compat.ts)

A JSON schema node is modelled by its shape as inspected by the code:
an object node (`type === 'object'` with its `properties` record and
`required` array), an array node with or without an `items` schema, and
any other node (which `normalizeSchema` leaves alone). -/

mutual
inductive JsonSchema where
  | obj (props : PropList) (required : List String) : JsonSchema
  | arrOf (items : JsonSchema) : JsonSchema
  | arrNoItems : JsonSchema
  | other : JsonSchema
inductive PropList where
  | nil : PropList
  | cons (name : String) (schema : JsonSchema) (rest : PropList) : PropList
end

/-- JS `Object.keys(schema.properties)`. -/
def PropList.names : PropList → List String
  | .nil => []
  | .cons n _ rest => n :: rest.names

mutual
/-- Source `normalizeSchema`: on an object node, set `required` to the property
names only `if (propNames.length > 0)`, and recurse into every property
value; on an array node, recurse into `items` when present. -/
def normalizeSchema : JsonSchema → JsonSchema
  | .obj props required =>
    .obj (normalizeProps props)
      (if props.names.length > 0 then props.names else required)
  | .arrOf items => .arrOf (normalizeSchema items)
  | .arrNoItems => .arrNoItems
  | .other => .other
def normalizeProps : PropList → PropList
  | .nil => .nil
  | .cons n s rest => .cons n (normalizeSchema s) (normalizeProps rest)
end

mutual
/-- What the code actually establishes: every reachable object node with at
least one declared property has `required` equal to its full property-name
list; object nodes with zero properties are unconstrained. -/
def isNormalized : JsonSchema → Bool
  | .obj props required =>
    (props.names.isEmpty || required == props.names) && propsNormalized props
  | .arrOf items => isNormalized items
  | .arrNoItems => true
  | .other => true
def propsNormalized : PropList → Bool
  | .nil => true
  | .cons _ s rest => isNormalized s && propsNormalized rest
end

mutual
/-- The claim's words: EVERY reachable object node (also one with zero
declared properties) has `required` equal to its full property-name list. -/
def isFullyRequired : JsonSchema → Bool
  | .obj props required => required == props.names && propsFullyRequired props
  | .arrOf items => isFullyRequired items
  | .arrNoItems => true
  | .other => true
def propsFullyRequired : PropList → Bool
  | .nil => true
  | .cons _ s rest => isFullyRequired s && propsFullyRequired rest
end

/-- A tool's `parameters` as inspected by `normalizeToolsForAzure`: an MCP
tool carrying a `jsonSchema` wrapper, a direct schema, or no parameters. -/
inductive ToolParameters where
  | jsonSchemaWrapped (s : JsonSchema) : ToolParameters
  | direct (s : JsonSchema) : ToolParameters
  | noParams : ToolParameters

/-- The per-tool dispatch of `normalizeToolsForAzure`: normalize
`params.jsonSchema` when the wrapper is present, else normalize `params`
itself only when it is object-typed with a `properties` record. -/
def normalizeToolParameters : ToolParameters → ToolParameters
  | .jsonSchemaWrapped s => .jsonSchemaWrapped (normalizeSchema s)
  | .direct s =>
    match s with
    | .obj props required => .direct (normalizeSchema (.obj props required))
    | s2 => .direct s2
  | .noParams => .noParams

/-- Source `normalizeToolsForAzure` over the tools record (name/parameters pairs). -/
def normalizeToolsForAzure (tools : List (String × ToolParameters)) :
    List (String × ToolParameters) :=
  tools.map fun t => (t.1, normalizeToolParameters t.2)

theorem normalizeProps_names : ∀ ps : PropList,
    (normalizeProps ps).names = ps.names
  | .nil => rfl
  | .cons n s rest => by
    simp [normalizeProps, PropList.names, normalizeProps_names rest]

mutual
theorem normalizeSchema_isNormalized : ∀ s : JsonSchema,
    isNormalized (normalizeSchema s) = true
  | .obj props required => by
    rw [normalizeSchema, isNormalized]
    rw [normalizeProps_names]
    rw [normalizeProps_propsNormalized props]
    cases hn : props.names with
    | nil => simp
    | cons a l => simp [hn]
  | .arrOf items => by
    rw [normalizeSchema, isNormalized]
    exact normalizeSchema_isNormalized items
  | .arrNoItems => rfl
  | .other => rfl
theorem normalizeProps_propsNormalized : ∀ ps : PropList,
    propsNormalized (normalizeProps ps) = true
  | .nil => rfl
  | .cons n s rest => by
    rw [normalizeProps, propsNormalized]
    rw [normalizeSchema_isNormalized s, normalizeProps_propsNormalized rest]
    rfl
end

/-- Whether a tool's parameters, as returned by the normalization pass,
satisfy the (per-node, nonempty-properties) required-list property on every
schema node the pass visits. -/
def paramsNormalized : ToolParameters → Bool
  | .jsonSchemaWrapped s => isNormalized s
  | .direct s =>
    match s with
    | .obj props required => isNormalized (.obj props required)
    | _ => true
  | .noParams => true

theorem normalizeToolParameters_normalized (p : ToolParameters) :
    paramsNormalized (normalizeToolParameters p) = true := by
  cases p with
  | jsonSchemaWrapped s =>
    rw [normalizeToolParameters, paramsNormalized]
    exact normalizeSchema_isNormalized s
  | direct s =>
    cases s with
    | obj props required =>
      rw [normalizeToolParameters]
      have h := normalizeSchema_isNormalized (.obj props required)
      rw [normalizeSchema] at h ⊢
      rw [paramsNormalized]
      exact h
    | arrOf items => rfl
    | arrNoItems => rfl
    | other => rfl
  | noParams => rfl

/-- C7 counterexample: a tool whose schema has one object-typed property
with zero properties of its own and a stale `required: ["x"]`. After
`normalizeToolsForAzure` the outer node's `required` becomes `["a"]`, but
the inner zero-property object node keeps `required = ["x"]`, which is not
its (empty) property-name list — so not every reachable object node ends
with `required` equal to its declared property names. -/
theorem azure_normalization_counterexample :
    normalizeToolsForAzure
      [("t", .jsonSchemaWrapped (.obj (.cons "a" (.obj .nil ["x"]) .nil) []))] =
      [("t", .jsonSchemaWrapped
        (.obj (.cons "a" (.obj .nil ["x"]) .nil) ["a"]))] ∧
    isFullyRequired (normalizeSchema
      (.obj (.cons "a" (.obj .nil ["x"]) .nil) [])) = false :=
  ⟨rfl, rfl⟩

/-- C7 (amended): after `normalizeToolsForAzure`, every tool's normalized
parameter schema satisfies, at every reachable object-typed node (including
nested object properties and array item schemas), that a node with at least
one declared property has `required` equal to exactly its declared property
names; a node with zero declared properties keeps its previous `required`
list. -/
theorem azure_normalization_all_required
    (tools : List (String × ToolParameters)) :
    (normalizeToolsForAzure tools).all
      (fun t => paramsNormalized t.2) = true := by
  rw [List.all_eq_true]
  intro t ht
  rw [normalizeToolsForAzure, List.mem_map] at ht
  obtain ⟨orig, _, rfl⟩ := ht
  exact normalizeToolParameters_normalized orig.2

/- ### Section 6: save_session additive merge (auth tools, save_session)

`save_session` captures `context.storageState()` (whose `origins` array
holds `{origin, localStorage: [{name, value}]}` entries), reads the page's
localStorage as key/value pairs, merges them into the entry for the
current origin, and writes the merged structure to the session file. -/

structure LSItem where
  name : String
  value : String
  deriving DecidableEq, Repr

structure OriginEntry where
  origin : String
  localStorage : List LSItem
  deriving DecidableEq, Repr

/-- The per-key merge loop: for each page `[key, value]` pair in iteration
order, `push {name: key, value}` unless `localStorage.some(item =>
item.name === key)` already holds on the (growing) list. -/
def mergeLocalStorage : List LSItem → List (String × String) → List LSItem
  | acc, [] => acc
  | acc, kv :: rest =>
    if acc.any (fun item => item.name == kv.1) then
      mergeLocalStorage acc rest
    else
      mergeLocalStorage (acc ++ [⟨kv.1, kv.2⟩]) rest

/-- The origin update: `origins.find(o => o.origin === origin)` picks the
first matching entry (a fresh `{origin, localStorage: []}` entry is pushed
when none exists), the page data is merged into it, and every other entry
is kept unchanged. -/
def updateOrigins : List OriginEntry → String → List (String × String) →
    List OriginEntry
  | [], origin, pd => [⟨origin, mergeLocalStorage [] pd⟩]
  | e :: rest, origin, pd =>
    if e.origin == origin then
      ⟨e.origin, mergeLocalStorage e.localStorage pd⟩ :: rest
    else e :: updateOrigins rest origin pd

/-- The storage-state structure `save_session` persists to the session
file: the captured state with the page's localStorage merged in. -/
def save_session (origins : List OriginEntry) (origin : String)
    (pageData : List (String × String)) : List OriginEntry :=
  updateOrigins origins origin pageData

/-- The localStorage list recorded for `origin` (empty when absent). -/
def originLS (origins : List OriginEntry) (origin : String) : List LSItem :=
  ((origins.find? fun e => e.origin == origin).map
    fun e => e.localStorage).getD []

theorem mergeLocalStorage_cons_pos {acc : List LSItem}
    {p : String × String} (rest : List (String × String))
    (hm : acc.any (fun item => item.name == p.1) = true) :
    mergeLocalStorage acc (p :: rest) = mergeLocalStorage acc rest := by
  simp only [mergeLocalStorage]
  rw [if_pos hm]

theorem mergeLocalStorage_cons_neg {acc : List LSItem}
    {p : String × String} (rest : List (String × String))
    (hm : acc.any (fun item => item.name == p.1) = false) :
    mergeLocalStorage acc (p :: rest) =
      mergeLocalStorage (acc ++ [(⟨p.1, p.2⟩ : LSItem)]) rest := by
  simp only [mergeLocalStorage]
  rw [if_neg (by simp [hm])]

theorem mergeLocalStorage_append (pd : List (String × String)) :
    ∀ acc : List LSItem, ∃ extra,
      mergeLocalStorage acc pd = acc ++ extra ∧
      ∀ it ∈ extra, ∀ jt ∈ acc, it.name ≠ jt.name := by
  induction pd with
  | nil =>
    intro acc
    exact ⟨[], by simp [mergeLocalStorage], by simp⟩
  | cons p rest ih =>
    intro acc
    cases hm : acc.any (fun item => item.name == p.1) with
    | true =>
      obtain ⟨extra, he, hf⟩ := ih acc
      exact ⟨extra, (mergeLocalStorage_cons_pos rest hm).trans he, hf⟩
    | false =>
      obtain ⟨extra, he, hf⟩ := ih (acc ++ [(⟨p.1, p.2⟩ : LSItem)])
      refine ⟨(⟨p.1, p.2⟩ : LSItem) :: extra, ?_, ?_⟩
      · rw [mergeLocalStorage_cons_neg rest hm, he, List.append_assoc]
        rfl
      · intro it hit jt hjt
        rcases List.mem_cons.mp hit with h1 | h1
        · subst h1
          rw [List.any_eq_false] at hm
          have hne := hm jt hjt
          simp only [beq_iff_eq] at hne
          exact fun hc => hne (hc ▸ rfl)
        · exact hf it h1 jt (List.mem_append_left _ hjt)

theorem mergeLocalStorage_any_mono {acc : List LSItem} {k : String}
    (h : acc.any (fun it => it.name == k) = true)
    (pd : List (String × String)) :
    (mergeLocalStorage acc pd).any (fun it => it.name == k) = true := by
  obtain ⟨extra, he, _⟩ := mergeLocalStorage_append pd acc
  rw [he, List.any_append, h]
  rfl

theorem mergeLocalStorage_covers (pd : List (String × String)) :
    ∀ (acc : List LSItem) (k v : String), (k, v) ∈ pd →
      (mergeLocalStorage acc pd).any (fun it => it.name == k) = true := by
  induction pd with
  | nil => intro acc k v h; simp at h
  | cons p rest ih =>
    intro acc k v hmem
    cases hm : acc.any (fun item => item.name == p.1) with
    | true =>
      rw [mergeLocalStorage_cons_pos rest hm]
      rcases List.mem_cons.mp hmem with h1 | h1
      · have hp : p.1 = k := by rw [← h1]
        exact mergeLocalStorage_any_mono (hp ▸ hm) rest
      · exact ih acc k v h1
    | false =>
      rw [mergeLocalStorage_cons_neg rest hm]
      rcases List.mem_cons.mp hmem with h1 | h1
      · have hp : p.1 = k := by rw [← h1]
        have hk : (acc ++ [(⟨p.1, p.2⟩ : LSItem)]).any
            (fun it => it.name == k) = true := by
          rw [List.any_append]
          simp [hp]
        exact mergeLocalStorage_any_mono hk rest
      · exact ih (acc ++ [(⟨p.1, p.2⟩ : LSItem)]) k v h1

theorem mergeLocalStorage_fresh_key (pd : List (String × String)) :
    ∀ (acc : List LSItem) (k v : String), (k, v) ∈ pd →
      (pd.map Prod.fst).Nodup →
      acc.any (fun it => it.name == k) = false →
      (mergeLocalStorage acc pd).find? (fun it => it.name == k) =
        some ⟨k, v⟩ := by
  induction pd with
  | nil => intro acc k v h; simp at h
  | cons p rest ih =>
    intro acc k v hmem hnd hacc
    rw [List.map_cons, List.nodup_cons] at hnd
    have haccnone : acc.find? (fun it => it.name == k) = none := by
      rw [List.find?_eq_none]
      intro x hx
      rw [List.any_eq_false] at hacc
      simp [hacc x hx]
    rcases List.mem_cons.mp hmem with h1 | h1
    · have hp1 : p = (k, v) := h1.symm
      subst hp1
      rw [mergeLocalStorage_cons_neg rest hacc]
      obtain ⟨extra, he, hf⟩ :=
        mergeLocalStorage_append rest (acc ++ [(⟨k, v⟩ : LSItem)])
      rw [he, List.find?_append, List.find?_append, haccnone]
      have hone : List.find? (fun it => it.name == k) [(⟨k, v⟩ : LSItem)] =
          some ⟨k, v⟩ := by simp
      rw [hone]
      rfl
    · have hkne : p.1 ≠ k := by
        intro hc
        exact hnd.1 (hc ▸ List.mem_map_of_mem Prod.fst h1)
      cases hm : acc.any (fun item => item.name == p.1) with
      | true =>
        rw [mergeLocalStorage_cons_pos rest hm]
        exact ih acc k v h1 hnd.2 hacc
      | false =>
        rw [mergeLocalStorage_cons_neg rest hm]
        refine ih _ k v h1 hnd.2 ?_
        rw [List.any_append, hacc]
        simp [hkne]

theorem originLS_cons_pos {e : OriginEntry} {origin : String}
    (rest : List OriginEntry) (he : (e.origin == origin) = true) :
    originLS (e :: rest) origin = e.localStorage := by
  simp only [originLS, List.find?, he]
  rfl

theorem originLS_cons_neg {e : OriginEntry} {origin : String}
    (rest : List OriginEntry) (he : (e.origin == origin) = false) :
    originLS (e :: rest) origin = originLS rest origin := by
  simp only [originLS, List.find?, he]

theorem originLS_updateOrigins (origin : String)
    (pd : List (String × String)) :
    ∀ origins : List OriginEntry,
      originLS (updateOrigins origins origin pd) origin =
        mergeLocalStorage (originLS origins origin) pd := by
  intro origins
  induction origins with
  | nil =>
    rw [show updateOrigins [] origin pd =
      [⟨origin, mergeLocalStorage [] pd⟩] from rfl]
    rw [originLS_cons_pos [] (by simp)]
    rfl
  | cons e rest ih =>
    cases he : e.origin == origin with
    | true =>
      simp only [updateOrigins, he, if_true]
      rw [originLS_cons_pos
        (e := ⟨e.origin, mergeLocalStorage e.localStorage pd⟩) rest he]
      rw [originLS_cons_pos rest he]
    | false =>
      simp only [updateOrigins, he, Bool.false_eq_true, if_false]
      rw [originLS_cons_neg _ he, originLS_cons_neg _ he]
      exact ih

theorem updateOrigins_keeps_other_origins (origin : String)
    (pd : List (String × String)) :
    ∀ origins : List OriginEntry, ∀ e ∈ origins, e.origin ≠ origin →
      e ∈ updateOrigins origins origin pd := by
  intro origins
  induction origins with
  | nil => intro e he; simp at he
  | cons f rest ih =>
    intro e he hne
    cases hf : f.origin == origin with
    | true =>
      simp only [updateOrigins, hf, if_true]
      rcases List.mem_cons.mp he with h1 | h1
      · exact absurd (h1 ▸ (by simpa using hf)) hne
      · exact List.mem_cons_of_mem _ h1
    | false =>
      simp only [updateOrigins, hf, Bool.false_eq_true, if_false]
      rcases List.mem_cons.mp he with h1 | h1
      · exact h1 ▸ List.mem_cons_self ..
      · exact List.mem_cons_of_mem _ (ih e h1 hne)

/-- C8: `save_session` merges the page's localStorage additively into the
captured state's entry for the current origin: the persisted entry is the
existing list with only fresh-named items appended, so every key already
present keeps its existing value (its first-match lookup is unchanged);
every page key is present afterwards; a page key not already present is
stored with the page's value; entries of other origins are untouched. -/
theorem save_session_additive_merge (origins : List OriginEntry)
    (origin : String) (pageData : List (String × String))
    (hkeys : (pageData.map Prod.fst).Nodup) :
    (∃ extra : List LSItem,
      originLS (save_session origins origin pageData) origin =
        originLS origins origin ++ extra ∧
      ∀ it ∈ extra, ∀ jt ∈ originLS origins origin, it.name ≠ jt.name) ∧
    (∀ k, (originLS origins origin).any (fun it => it.name == k) = true →
      (originLS (save_session origins origin pageData) origin).find?
        (fun it => it.name == k) =
      (originLS origins origin).find? (fun it => it.name == k)) ∧
    (∀ k v, (k, v) ∈ pageData →
      (originLS (save_session origins origin pageData) origin).any
        (fun it => it.name == k) = true) ∧
    (∀ k v, (k, v) ∈ pageData →
      (originLS origins origin).any (fun it => it.name == k) = false →
      (originLS (save_session origins origin pageData) origin).find?
        (fun it => it.name == k) = some ⟨k, v⟩) ∧
    (∀ e ∈ origins, e.origin ≠ origin →
      e ∈ save_session origins origin pageData) := by
  have hLS : originLS (save_session origins origin pageData) origin =
      mergeLocalStorage (originLS origins origin) pageData :=
    originLS_updateOrigins origin pageData origins
  refine ⟨?_, ?_, ?_, ?_, ?_⟩
  · obtain ⟨extra, he, hf⟩ :=
      mergeLocalStorage_append pageData (originLS origins origin)
    exact ⟨extra, hLS.trans he, hf⟩
  · intro k hk
    obtain ⟨extra, he, _⟩ :=
      mergeLocalStorage_append pageData (originLS origins origin)
    rw [hLS, he, List.find?_append]
    rw [List.any_eq_true] at hk
    obtain ⟨x, hx, hpx⟩ := hk
    cases hfind : (originLS origins origin).find? (fun it => it.name == k) with
    | none =>
      rw [List.find?_eq_none] at hfind
      exact absurd hpx (by simpa using hfind x hx)
    | some y => rfl
  · intro k v hkv
    rw [hLS]
    exact mergeLocalStorage_covers pageData (originLS origins origin) k v hkv
  · intro k v hkv habsent
    rw [hLS]
    exact mergeLocalStorage_fresh_key pageData (originLS origins origin)
      k v hkv hkeys habsent
  · exact updateOrigins_keeps_other_origins origin pageData origins

/-- Witness for C8: an existing `token` key keeps its old value, the fresh
`theme` key is appended with the page's value. -/
theorem save_session_additive_merge_witness :
    (∃ extra : List LSItem,
      originLS (save_session [⟨"https://ex.com", [⟨"token", "old"⟩]⟩]
          "https://ex.com" [("token", "new"), ("theme", "dark")])
          "https://ex.com" =
        originLS [⟨"https://ex.com", [⟨"token", "old"⟩]⟩] "https://ex.com"
          ++ extra ∧
      ∀ it ∈ extra,
        ∀ jt ∈ originLS [⟨"https://ex.com", [⟨"token", "old"⟩]⟩]
          "https://ex.com", it.name ≠ jt.name) ∧
    (∀ k, (originLS [⟨"https://ex.com", [⟨"token", "old"⟩]⟩]
        "https://ex.com").any (fun it => it.name == k) = true →
      (originLS (save_session [⟨"https://ex.com", [⟨"token", "old"⟩]⟩]
          "https://ex.com" [("token", "new"), ("theme", "dark")])
          "https://ex.com").find? (fun it => it.name == k) =
      (originLS [⟨"https://ex.com", [⟨"token", "old"⟩]⟩]
        "https://ex.com").find? (fun it => it.name == k)) ∧
    (∀ k v, (k, v) ∈ [("token", "new"), ("theme", "dark")] →
      (originLS (save_session [⟨"https://ex.com", [⟨"token", "old"⟩]⟩]
          "https://ex.com" [("token", "new"), ("theme", "dark")])
          "https://ex.com").any (fun it => it.name == k) = true) ∧
    (∀ k v, (k, v) ∈ [("token", "new"), ("theme", "dark")] →
      (originLS [⟨"https://ex.com", [⟨"token", "old"⟩]⟩]
        "https://ex.com").any (fun it => it.name == k) = false →
      (originLS (save_session [⟨"https://ex.com", [⟨"token", "old"⟩]⟩]
          "https://ex.com" [("token", "new"), ("theme", "dark")])
          "https://ex.com").find? (fun it => it.name == k) = some ⟨k, v⟩) ∧
    (∀ e ∈ [(⟨"https://ex.com", [⟨"token", "old"⟩]⟩ : OriginEntry)],
      e.origin ≠ "https://ex.com" →
      e ∈ save_session [⟨"https://ex.com", [⟨"token", "old"⟩]⟩]
        "https://ex.com" [("token", "new"), ("theme", "dark")]) :=
  save_session_additive_merge [⟨"https://ex.com", [⟨"token", "old"⟩]⟩]
    "https://ex.com" [("token", "new"), ("theme", "dark")] (by decide)

/- ### Section 7: HTML escaping (src/src/main.ts, Main.escapeHtml)

`escapeHtml` chains five global single-character regex replacements:
`&` to `&amp;` first, then `<`, `>`, double quote and single quote to
their entities. A global single-character replacement is the
character-wise expansion below; strings are embedded as `List Char`. -/

/-- JS `text.replace(/c/g, rep)` for a single-character pattern `c`. -/
def replaceChar (c : Char) (rep : List Char) (s : List Char) : List Char :=
  s.flatMap fun x => if x = c then rep else [x]

/-- The double-quote character. -/
def dquote : Char := Char.ofNat 34

/-- The single-quote character. -/
def squote : Char := Char.ofNat 39

/-- Source `Main.escapeHtml`: ampersands first, then the four other characters. -/
def escapeHtml (s : List Char) : List Char :=
  replaceChar squote "&#039;".data
    (replaceChar dquote "&quot;".data
      (replaceChar '>' "&gt;".data
        (replaceChar '<' "&lt;".data
          (replaceChar '&' "&amp;".data s))))

/-- The claim's words: one pass replacing each occurrence of the five
characters by its entity (equivalent to the chain precisely because
ampersands are replaced first, so entities introduced later are not
re-escaped). -/
def escapeCharSpec (c : Char) : List Char :=
  if c = '&' then "&amp;".data
  else if c = '<' then "&lt;".data
  else if c = '>' then "&gt;".data
  else if c = dquote then "&quot;".data
  else if c = squote then "&#039;".data
  else [c]

theorem replaceChar_append (c : Char) (rep : List Char)
    (a b : List Char) :
    replaceChar c rep (a ++ b) = replaceChar c rep a ++ replaceChar c rep b := by
  simp [replaceChar]

theorem escapeHtml_append (a b : List Char) :
    escapeHtml (a ++ b) = escapeHtml a ++ escapeHtml b := by
  simp [escapeHtml, replaceChar_append]

theorem escapeHtml_single (x : Char) : escapeHtml [x] = escapeCharSpec x := by
  by_cases h1 : x = '&'
  · subst h1; decide
  by_cases h2 : x = '<'
  · subst h2; decide
  by_cases h3 : x = '>'
  · subst h3; decide
  by_cases h4 : x = dquote
  · subst h4; decide
  by_cases h5 : x = squote
  · subst h5; decide
  simp [escapeHtml, replaceChar, escapeCharSpec, h1, h2, h3, h4, h5]

theorem escapeCharSpec_no_special (c : Char) :
    (escapeCharSpec c).all
      (fun x => !(x = '<' || x = '>' || x = dquote || x = squote)) = true := by
  by_cases h1 : c = '&'
  · subst h1; decide
  by_cases h2 : c = '<'
  · subst h2; decide
  by_cases h3 : c = '>'
  · subst h3; decide
  by_cases h4 : c = dquote
  · subst h4; decide
  by_cases h5 : c = squote
  · subst h5; decide
  simp [escapeCharSpec, h1, h2, h3, h4, h5]

/-- C10: `escapeHtml` performs exactly the one-pass per-character
entity substitution (each `&`, `<`, `>`, double quote and single quote
becomes its entity, ampersands escaped first so no entity is re-escaped),
and consequently its output never contains `<`, `>`, a double quote or a
single quote. -/
theorem escapeHtml_escapes_specials (s : List Char) :
    escapeHtml s = s.flatMap escapeCharSpec ∧
    (escapeHtml s).all
      (fun x => !(x = '<' || x = '>' || x = dquote || x = squote)) = true := by
  have heq : escapeHtml s = s.flatMap escapeCharSpec := by
    induction s with
    | nil => rfl
    | cons x t ih =>
      have hx : escapeHtml (x :: t) = escapeHtml [x] ++ escapeHtml t :=
        escapeHtml_append [x] t
      rw [hx, ih, escapeHtml_single]
      rfl
  refine ⟨heq, ?_⟩
  rw [heq, List.all_eq_true]
  intro x hx
  rw [List.mem_flatMap] at hx
  obtain ⟨c, _, hxc⟩ := hx
  have hall := escapeCharSpec_no_special c
  rw [List.all_eq_true] at hall
  exact hall x hxc
